import Mathlib

/-!
Verification of the memory-image region model of `pc-nrfconnect-programmer`
(`src/lib/actions/fileActions.js`).

The embedding below translates the relevant JavaScript functions into pure
Lean functions.  Addresses and sizes are modelled as `Int` (JavaScript
numbers hold exact integers in the ranges used here, and subtraction may go
negative).  The Redux state threading is made explicit: each action thunk
becomes a function from its inputs (the current region list, the target
regions, the device info) to the new region list, and dispatched
side-effect actions are collected into lists where a claim needs them.

JavaScript truthiness matters in the source (`!appStartAddress` is true both
for `undefined` and for the number `0`); accumulators that start as
`undefined` are modelled as `Option Int` and the truthiness tests are
translated exactly.
-/

/-- The `RegionName` values used by `fileActions.js` (from `lib/util/regions`). -/
inductive RegionName where
  | APPLICATION
  | SOFTDEVICE
  | BOOTLOADER
  | NONE
deriving DecidableEq, Repr

/-- The `RegionColor` display tags; opaque to the algorithms, kept because the
synthesized application region is constructed with `RegionColor.APPLICATION`. -/
inductive RegionColor where
  | APPLICATION
  | SOFTDEVICE
  | BOOTLOADER
  | NONE
deriving DecidableEq, Repr

/-- The `Region` record (`lib/util/regions`): fields used by
`fileActions.js`.  Fields not read by the code under verification
(`fileNames`, `permission`, ...) are omitted. -/
structure Region where
  name : RegionName
  startAddress : Int
  regionSize : Int
  color : RegionColor
deriving DecidableEq, Repr

/-- The `deviceInfo` fields read by `updateFileBlRegion` / `updateFileRegions`. -/
structure DeviceInfo where
  romSize : Int
  pageSize : Int
  uicrBaseAddr : Int
deriving DecidableEq, Repr

/-- The exclusive end `startAddress + regionSize` of a region's interval. -/
def regionEnd (r : Region) : Int := r.startAddress + r.regionSize

/-- JS condition `(!appStartAddress || appStartAddress > x)`: true when the
accumulator is `undefined`, when it is the falsy number `0`, or when it is
greater than `x`. -/
def lowerScanCond (acc : Option Int) (x : Int) : Prop :=
  match acc with
  | none => True
  | some v => v = 0 ∨ x < v

instance (acc : Option Int) (x : Int) : Decidable (lowerScanCond acc x) :=
  match acc with
  | none => isTrue trivial
  | some v => inferInstanceAs (Decidable (v = 0 ∨ x < v))

/-- JS condition `(!appEndAddress || appEndAddress < x)`. -/
def upperScanCondLt (acc : Option Int) (x : Int) : Prop :=
  match acc with
  | none => True
  | some v => v = 0 ∨ v < x

instance (acc : Option Int) (x : Int) : Decidable (upperScanCondLt acc x) :=
  match acc with
  | none => isTrue trivial
  | some v => inferInstanceAs (Decidable (v = 0 ∨ v < x))

/-- JS condition `(!blEndAddress || blEndAddress <= x)`. -/
def upperScanCondLe (acc : Option Int) (x : Int) : Prop :=
  match acc with
  | none => True
  | some v => v = 0 ∨ v ≤ x

instance (acc : Option Int) (x : Int) : Decidable (upperScanCondLe acc x) :=
  match acc with
  | none => isTrue trivial
  | some v => inferInstanceAs (Decidable (v = 0 ∨ v ≤ x))

/-- Predicate: `r` is an APPLICATION region. -/
abbrev IsApp (r : Region) : Prop := r.name = RegionName.APPLICATION

/-- Predicate: `r` is an APPLICATION region starting below the (target) bootloader
region `b` — the fragments the application-merge pass removes. -/
abbrev QualApp (b r : Region) : Prop :=
  r.name = RegionName.APPLICATION ∧ r.startAddress < b.startAddress

/-- Predicate: `r` is a NONE region scanned by the bootloader-merge pass: it starts
after the bootloader region and ends below `romSize`. -/
abbrev QualNone (blRegion : Region) (romSize : Int) (r : Region) : Prop :=
  r.name = RegionName.NONE ∧ blRegion.startAddress < r.startAddress
    ∧ r.startAddress + r.regionSize < romSize

/-- Well-formedness from the spec's data model: addresses are unsigned and
`length > 0`. -/
abbrev WfRegion (r : Region) : Prop := 0 ≤ r.startAddress ∧ 0 < r.regionSize

/-- One step of the `appStartAddress` accumulator of the `forEach` loop in
`updateFileAppRegions`: set to `r.startAddress` for every APPLICATION
region when `(!appStartAddress || appStartAddress > r.startAddress)`. -/
def appStartStep (acc : Option Int) (r : Region) : Option Int :=
  if r.name = RegionName.APPLICATION ∧ lowerScanCond acc r.startAddress
  then some r.startAddress else acc

/-- The `appStartAddress` value after the loop.  The source loop carries
`appStartAddress` and `appEndAddress` through one `forEach`; the two
accumulators are independent, so they are modelled as two folds over the
same list. -/
def appStartScan (l : List Region) : Option Int := l.foldl appStartStep none

/-- One step of the `appEndAddress` accumulator: set to
`r.startAddress + r.regionSize` for APPLICATION regions starting below the
target bootloader region, when
`(!appEndAddress || appEndAddress < r.startAddress)`; nothing happens when
there is no target bootloader region. -/
def appEndStep (targetBootloaderRegion : Option Region) (acc : Option Int) (r : Region) :
    Option Int :=
  match targetBootloaderRegion with
  | none => acc
  | some b =>
    if r.name = RegionName.APPLICATION ∧ r.startAddress < b.startAddress
        ∧ upperScanCondLt acc r.startAddress
    then some (r.startAddress + r.regionSize) else acc

/-- The `appEndAddress` value after the loop. -/
def appEndScan (targetBootloaderRegion : Option Region) (l : List Region) : Option Int :=
  l.foldl (appEndStep targetBootloaderRegion) none

/-- The removal loop pattern of both passes: iterate over the original list
(the `forEach` snapshot) and, for each element satisfying `q`, delete the
first occurrence of its value from the current list
(`fileRegions = fileRegions.remove(fileRegions.indexOf(r))`, which on an
immutable list with value equality is `List.erase`). -/
def removeMatching (q : Region → Prop) [DecidablePred q] (l : List Region) : List Region :=
  l.foldl (fun cur r => if q r then cur.erase r else cur) l

/-- The region pushed by `updateFileAppRegions` when the merge fires. -/
def mkAppRegion (s e : Int) : Region :=
  { name := RegionName.APPLICATION
    startAddress := s
    regionSize := e - s
    color := RegionColor.APPLICATION }

/-- Embedding of `updateFileAppRegions` (fileActions.js lines 145-188): find the target
bootloader region, run the two scans, and if the bootloader and both scan
results are defined, remove every APPLICATION region starting below the
bootloader and push one synthesized APPLICATION region.  Otherwise the
state is left unchanged (no dispatch). -/
def updateFileAppRegions (fileRegions targetRegions : List Region) : List Region :=
  match targetRegions.find? (fun r => r.name == RegionName.BOOTLOADER),
        appStartScan fileRegions,
        appEndScan (targetRegions.find? (fun r => r.name == RegionName.BOOTLOADER)) fileRegions with
  | some b, some appStartAddress, some appEndAddress =>
      removeMatching (fun r => QualApp b r) fileRegions
        ++ [mkAppRegion appStartAddress appEndAddress]
  | _, _, _ => fileRegions

/-- One step of the `blEndAddress` accumulator of `updateFileBlRegion`: set
to `r.startAddress + r.regionSize` for NONE regions starting after the
bootloader region and ending below `romSize`, when
`(!blEndAddress || blEndAddress <= r.startAddress)`. -/
def blEndStep (blRegion : Region) (romSize : Int) (acc : Option Int) (r : Region) : Option Int :=
  if r.name = RegionName.NONE ∧ blRegion.startAddress < r.startAddress
      ∧ r.startAddress + r.regionSize < romSize ∧ upperScanCondLe acc r.startAddress
  then some (r.startAddress + r.regionSize) else acc

/-- The `blEndAddress` value after the loop. -/
def blEndScan (blRegion : Region) (romSize : Int) (l : List Region) : Option Int :=
  l.foldl (blEndStep blRegion romSize) none

/-- Embedding of `updateFileBlRegion` (fileActions.js lines 192-225): find the first
BOOTLOADER region; if present, scan for `blEndAddress`; if defined, remove
every NONE region (the removal loop's guard is only
`r.name === RegionName.NONE`) and overwrite the bootloader region, at its
index in the pruned list, with its size widened to
`blEndAddress - blStartAddress`. -/
def updateFileBlRegion (fileRegions : List Region) (deviceInfo : DeviceInfo) : List Region :=
  match fileRegions.find? (fun r => r.name == RegionName.BOOTLOADER) with
  | none => fileRegions
  | some blRegion =>
    match blEndScan blRegion deviceInfo.romSize fileRegions with
    | none => fileRegions
    | some blEndAddress =>
      let removed := removeMatching (fun r => r.name = RegionName.NONE) fileRegions
      removed.set (removed.indexOf blRegion)
        { blRegion with regionSize := blEndAddress - blRegion.startAddress }

/-- The reconciler: `updateFileAppRegions` followed by `updateFileBlRegion`,
each reading the region list the previous one left in the store. -/
def reconcile (fileRegions targetRegions : List Region) (deviceInfo : DeviceInfo) : List Region :=
  updateFileBlRegion (updateFileAppRegions fileRegions targetRegions) deviceInfo

/-- Embedding of `addMruFile` (fileActions.js lines 293-300): when the filename is not in
the persisted list, prepend it (`unshift`) and truncate to ten entries
(`splice(10)` keeps indices 0-9) and persist; when it is already present,
nothing happens, so the persisted list is unchanged. -/
def addMruFile (filename : String) (files : List String) : List String :=
  if filename ∈ files then files else (filename :: files).take 10

/-- Constant `MCUBOOT_FW_START_ADDRESS` (fileActions.js line 69). -/
def MCUBOOT_FW_START_ADDRESS : Int := 0xC000

/-- A parsed memory map: ordered data blocks `(startAddress, byte length)`.
Block payloads are irrelevant to the verified logic, only lengths are kept. -/
abbrev MemMap := List (Int × Nat)

/-- The `memMap.forEach` loop of `parseOneFile` (fileActions.js lines
345-355): for each block whose address equals `MCUBOOT_FW_START_ADDRESS` it
dispatches `mcubootFileKnownAction(filePath)`; the resulting list of
dispatched file paths is collected in iteration order. -/
def mcubootDispatches (filePath : String) (memMap : MemMap) : List String :=
  memMap.foldl
    (fun acc block => if block.1 == MCUBOOT_FW_START_ADDRESS then acc ++ [filePath] else acc)
    []

/-- The in-store file state read by `parseOneFile`: the keys of the `loaded`
map and the `memMaps` association sequence. -/
structure FileState where
  loaded : List (String × MemMap)
  memMaps : List (String × MemMap)

/-- Result of the duplicate-key guard at the top of `parseOneFile`
(fileActions.js lines 302-307): when the guard fires, the thunk returns at
once; `state` is what the store still holds and `errorDispatched` records
whether any error action was dispatched on the way out. -/
structure EarlyReturn where
  state : FileState
  errorDispatched : Bool

/-- The guard `if (loaded[filePath]) { return; }`: for an already-loaded
path the thunk returns immediately (`some`, with the store untouched and no
error dispatched); otherwise it proceeds to the file-system reads
(`none`, not modelled further). -/
def parseOneFileGuard (st : FileState) (filePath : String) : Option EarlyReturn :=
  if (st.loaded.lookup filePath).isSome then some ⟨st, false⟩ else none

/-- One entry of `MemoryMap.overlapMemoryMaps`: a start address together
with the contributing `(fileKey, byte length)` pairs (the code reads only
`overlap[0][1].length`, the first contributor's length). -/
abbrev OverlapEntry := Int × List (String × Nat)

/-- The end address computed by `updateFileRegions`:
`startAddress + overlap[0][1].length`.  `overlapMemoryMaps` entries always
have at least one contributor; an empty list is given length 0. -/
def overlapEndAddress (ov : OverlapEntry) : Int :=
  ov.1 + (match ov.2 with | [] => 0 | c :: _ => (c.2 : Int))

/-- The out-of-writable-area test of `updateFileRegions` (fileActions.js
lines 244-246). -/
def outsideFlashCond (d : DeviceInfo) (startAddress endAddress : Int) : Prop :=
  (startAddress < d.uicrBaseAddr ∧ endAddress > d.romSize)
    ∨ (startAddress ≥ d.uicrBaseAddr ∧ endAddress > d.uicrBaseAddr + d.pageSize)

instance (d : DeviceInfo) (s e : Int) : Decidable (outsideFlashCond d s e) :=
  inferInstanceAs (Decidable (Or _ _))

/-- Modelled from the spec: `hexpad8` lives in `src/lib/util/hexpad`, which
is not part of the provided sources.  Per the spec it renders an address as
an 8-hex-digit, zero-padded string.  Digits here are lowercase; negative
inputs do not occur for addresses. -/
def hexDigitChar (n : Nat) : Char :=
  if n < 10 then Char.ofNat (48 + n) else Char.ofNat (87 + n)

/-- Modelled from the spec: big-endian hex digits of `n`, `width` of them. -/
def hexDigits (n width : Nat) : List Char :=
  match width with
  | 0 => []
  | w + 1 => hexDigits (n / 16) w ++ [hexDigitChar (n % 16)]

/-- Modelled from the spec: the 8-hex-digit zero-padded rendering. -/
def hexpad8 (n : Int) : String := String.mk (hexDigits n.toNat 8)

/-- The display string pushed for a flagged overlap entry. -/
def outsideBlockString (ov : OverlapEntry) : String :=
  hexpad8 ov.1 ++ "-" ++ hexpad8 (overlapEndAddress ov)

/-- The `outsideFlashBlocks` accumulation of `updateFileRegions`
(fileActions.js lines 241-249): every overlap entry whose range fails the
writable-area test contributes the string
`hexpad8(startAddress)-hexpad8(endAddress)`, in iteration order. -/
def outsideFlashBlocks (overlaps : List OverlapEntry) (d : DeviceInfo) : List String :=
  overlaps.foldl
    (fun acc ov =>
      if outsideFlashCond d ov.1 (overlapEndAddress ov)
      then acc ++ [outsideBlockString ov]
      else acc)
    []

section ListLemmas

variable {α : Type} {β : Type}

/-- A fold that appends `f x` for every `x` passing `p` produces the
filtered-and-mapped list, appended to the initial accumulator. -/
theorem foldl_push_eq (p : α → Bool) (f : α → β) :
    ∀ (l : List α) (acc : List β),
      l.foldl (fun acc x => if p x then acc ++ [f x] else acc) acc
        = acc ++ (l.filter p).map f := by
  intro l
  induction l with
  | nil => intro acc; simp
  | cons a t ih =>
    intro acc
    cases hp : p a <;> simp [List.filter_cons, hp, ih]

/-- Folding the erase-if-matching step over `t`, starting from `a :: cur`
with `a` not matching, keeps `a` in front. -/
theorem foldl_erase_shift [DecidableEq α] (q : α → Prop) [DecidablePred q] {a : α}
    (ha : ¬ q a) :
    ∀ (t : List α) (cur : List α),
      t.foldl (fun cur r => if q r then cur.erase r else cur) (a :: cur)
        = a :: t.foldl (fun cur r => if q r then cur.erase r else cur) cur := by
  intro t
  induction t with
  | nil => intro cur; rfl
  | cons r t ih =>
    intro cur
    by_cases hr : q r
    · have hne : ¬ (a == r) = true := by
        simp only [beq_iff_eq]
        rintro rfl; exact ha hr
      simp only [List.foldl_cons, if_pos hr, List.erase_cons_tail hne]
      exact ih _
    · simp only [List.foldl_cons, if_neg hr]
      exact ih _

/-- The removal loop of the passes (`forEach` over the snapshot, erasing the
first occurrence of each matching value from the current list) is the
filter that drops matching values. -/
theorem removeMatching_eq_filter (q : Region → Prop) [DecidablePred q] :
    ∀ l : List Region, removeMatching q l = l.filter (fun r => decide (¬ q r)) := by
  intro l
  induction l with
  | nil => rfl
  | cons a t ih =>
    by_cases ha : q a
    · show List.foldl _ _ _ = _
      rw [List.foldl_cons, if_pos ha, List.erase_cons_head]
      have h1 : List.foldl (fun cur r => if q r then cur.erase r else cur) t t
          = removeMatching q t := rfl
      rw [h1, ih, List.filter_cons]
      simp [ha]
    · show List.foldl _ _ _ = _
      rw [List.foldl_cons, if_neg ha, foldl_erase_shift q ha]
      have h1 : List.foldl (fun cur r => if q r then cur.erase r else cur) t t
          = removeMatching q t := rfl
      rw [h1, ih, List.filter_cons]
      simp [ha]

/-- Computing `indexOf` into an append whose left part contains the element. -/
theorem indexOf_append_left [DecidableEq α] {a : α} :
    ∀ {xs : List α} (ys : List α), a ∈ xs →
      List.indexOf a (xs ++ ys) = List.indexOf a xs := by
  intro xs
  induction xs with
  | nil => intro ys h; cases h
  | cons b t ih =>
    intro ys h
    by_cases hb : b = a
    · subst hb; simp [List.indexOf_cons_self]
    · have hmem : a ∈ t := by
        rcases List.mem_cons.mp h with h1 | h1
        · exact absurd h1.symm hb
        · exact h1
      have hne : (b == a) = false := by simp [beq_eq_false_iff_ne, hb]
      simp only [List.cons_append, List.indexOf_cons, hne, cond_false]
      rw [ih ys hmem]

end ListLemmas

section ScanLemmas

theorem lowerScanCond_none (x : Int) : lowerScanCond none x := True.intro

theorem upperScanCondLt_none (x : Int) : upperScanCondLt none x := True.intro

theorem upperScanCondLe_none (x : Int) : upperScanCondLe none x := True.intro

/-- Step lemma: `appStartStep` ignores non-APPLICATION regions. -/
theorem appStartStep_not_app {acc : Option Int} {r : Region}
    (h : r.name ≠ RegionName.APPLICATION) : appStartStep acc r = acc := by
  unfold appStartStep
  rw [if_neg]
  rintro ⟨h1, -⟩
  exact h h1

/-- Step lemma: `appStartStep` on a defined accumulator stays defined. -/
theorem appStartStep_some (v : Int) (r : Region) :
    ∃ w, appStartStep (some v) r = some w := by
  unfold appStartStep
  split
  · exact ⟨_, rfl⟩
  · exact ⟨v, rfl⟩

/-- Once defined, the `appStartAddress` accumulator never becomes undefined. -/
theorem appStartFold_isSome :
    ∀ (l : List Region) (v : Int), ∃ w, l.foldl appStartStep (some v) = some w := by
  intro l
  induction l with
  | nil => exact fun v => ⟨v, rfl⟩
  | cons r t ih =>
    intro v
    rw [List.foldl_cons]
    obtain ⟨w, hw⟩ := appStartStep_some v r
    rw [hw]
    exact ih w

/-- The `appStartAddress` accumulator ends undefined exactly when it started
undefined and no APPLICATION region was scanned. -/
theorem appStartFold_none_iff :
    ∀ (l : List Region) (acc : Option Int),
      l.foldl appStartStep acc = none
        ↔ (acc = none ∧ ∀ r ∈ l, r.name ≠ RegionName.APPLICATION) := by
  intro l
  induction l with
  | nil => intro acc; simp
  | cons r t ih =>
    intro acc
    rw [List.foldl_cons]
    by_cases happ : r.name = RegionName.APPLICATION
    · constructor
      · intro h
        exfalso
        rcases hstep : appStartStep acc r with _ | w
        · unfold appStartStep at hstep
          by_cases hc : r.name = RegionName.APPLICATION ∧ lowerScanCond acc r.startAddress
          · rw [if_pos hc] at hstep; cases hstep
          · rw [if_neg hc] at hstep
            subst hstep
            exact hc ⟨happ, True.intro⟩
        · rw [hstep] at h
          obtain ⟨w2, hw2⟩ := appStartFold_isSome t w
          rw [hw2] at h
          exact Option.some_ne_none _ h
      · rintro ⟨-, hall⟩
        exact absurd happ (hall r (List.mem_cons_self r t))
    · rw [appStartStep_not_app happ, ih]
      constructor
      · rintro ⟨h1, h2⟩
        refine ⟨h1, fun x hx => ?_⟩
        rcases List.mem_cons.mp hx with h | h
        · subst h; exact happ
        · exact h2 x h
      · rintro ⟨h1, h2⟩
        exact ⟨h1, fun x hx => h2 x (List.mem_cons_of_mem r hx)⟩

/-- Every defined value of the `appStartAddress` accumulator is the start
address of some scanned APPLICATION region (or was there initially). -/
theorem appStartFold_mem :
    ∀ (l : List Region) (acc : Option Int) (v : Int),
      l.foldl appStartStep acc = some v →
      acc = some v ∨ ∃ r ∈ l, r.name = RegionName.APPLICATION ∧ r.startAddress = v := by
  intro l
  induction l with
  | nil => intro acc v h; exact Or.inl h
  | cons r t ih =>
    intro acc v h
    rw [List.foldl_cons] at h
    rcases ih _ _ h with h1 | ⟨r2, hr2, h2⟩
    · unfold appStartStep at h1
      by_cases hc : r.name = RegionName.APPLICATION ∧ lowerScanCond acc r.startAddress
      · rw [if_pos hc] at h1
        exact Or.inr ⟨r, List.mem_cons_self r t, hc.1, Option.some.inj h1⟩
      · rw [if_neg hc] at h1
        exact Or.inl h1
    · exact Or.inr ⟨r2, List.mem_cons_of_mem r hr2, h2⟩

/-- Scanning a list that ends in an APPLICATION region starting strictly
below every other APPLICATION start yields that region's start. -/
theorem appStartScan_append_single {init : List Region} {M : Region}
    (hM : M.name = RegionName.APPLICATION)
    (hlo : ∀ r ∈ init, r.name = RegionName.APPLICATION → M.startAddress < r.startAddress) :
    appStartScan (init ++ [M]) = some M.startAddress := by
  unfold appStartScan
  rw [List.foldl_append]
  simp only [List.foldl_cons, List.foldl_nil]
  rcases ha : init.foldl appStartStep none with _ | a
  · unfold appStartStep
    rw [if_pos ⟨hM, True.intro⟩]
  · rcases appStartFold_mem init none a ha with h | ⟨r, hr, hrapp, hrs⟩
    · exact absurd h (Option.noConfusion)
    · have hlt : M.startAddress < a := hrs ▸ hlo r hr hrapp
      unfold appStartStep
      rw [if_pos ⟨hM, Or.inr hlt⟩]

/-- Reduction of `appEndStep` at a present bootloader region. -/
theorem appEndStep_some_b (b : Region) (acc : Option Int) (r : Region) :
    appEndStep (some b) acc r
      = if r.name = RegionName.APPLICATION ∧ r.startAddress < b.startAddress
            ∧ upperScanCondLt acc r.startAddress
        then some (r.startAddress + r.regionSize) else acc := rfl

/-- Step lemma: `appEndStep` ignores regions that are not qualifying APPLICATION
fragments. -/
theorem appEndStep_not_qual {b : Region} {acc : Option Int} {r : Region}
    (h : ¬ QualApp b r) : appEndStep (some b) acc r = acc := by
  rw [appEndStep_some_b, if_neg]
  rintro ⟨h1, h2, -⟩
  exact h ⟨h1, h2⟩

/-- Step lemma: `appEndStep` on a defined accumulator stays defined. -/
theorem appEndStep_some (b : Region) (v : Int) (r : Region) :
    ∃ w, appEndStep (some b) (some v) r = some w := by
  rw [appEndStep_some_b]
  split
  · exact ⟨_, rfl⟩
  · exact ⟨v, rfl⟩

theorem appEndFold_isSome (b : Region) :
    ∀ (l : List Region) (v : Int), ∃ w, l.foldl (appEndStep (some b)) (some v) = some w := by
  intro l
  induction l with
  | nil => exact fun v => ⟨v, rfl⟩
  | cons r t ih =>
    intro v
    rw [List.foldl_cons]
    obtain ⟨w, hw⟩ := appEndStep_some b v r
    rw [hw]
    exact ih w

/-- The `appEndAddress` accumulator ends undefined exactly when it started
undefined and no qualifying APPLICATION fragment was scanned. -/
theorem appEndFold_none_iff (b : Region) :
    ∀ (l : List Region) (acc : Option Int),
      l.foldl (appEndStep (some b)) acc = none
        ↔ (acc = none ∧ ∀ r ∈ l, ¬ QualApp b r) := by
  intro l
  induction l with
  | nil => intro acc; simp
  | cons r t ih =>
    intro acc
    rw [List.foldl_cons]
    by_cases hq : QualApp b r
    · constructor
      · intro h
        exfalso
        rcases hstep : appEndStep (some b) acc r with _ | w
        · rw [appEndStep_some_b] at hstep
          by_cases hc : r.name = RegionName.APPLICATION ∧ r.startAddress < b.startAddress
              ∧ upperScanCondLt acc r.startAddress
          · rw [if_pos hc] at hstep; cases hstep
          · rw [if_neg hc] at hstep
            subst hstep
            exact hc ⟨hq.1, hq.2, True.intro⟩
        · rw [hstep] at h
          obtain ⟨w2, hw2⟩ := appEndFold_isSome b t w
          rw [hw2] at h
          exact Option.some_ne_none _ h
      · rintro ⟨-, hall⟩
        exact absurd hq (hall r (List.mem_cons_self r t))
    · rw [appEndStep_not_qual hq, ih]
      constructor
      · rintro ⟨h1, h2⟩
        refine ⟨h1, fun x hx => ?_⟩
        rcases List.mem_cons.mp hx with h | h
        · subst h; exact hq
        · exact h2 x h
      · rintro ⟨h1, h2⟩
        exact ⟨h1, fun x hx => h2 x (List.mem_cons_of_mem r hx)⟩

/-- Scanning a list whose only qualifying APPLICATION fragment is a final
element yields that fragment's end address. -/
theorem appEndScan_append_single {b : Region} {init : List Region} {M : Region}
    (hq : QualApp b M) (hnone : ∀ r ∈ init, ¬ QualApp b r) :
    appEndScan (some b) (init ++ [M]) = some (regionEnd M) := by
  unfold appEndScan
  rw [List.foldl_append]
  have h0 : init.foldl (appEndStep (some b)) none = none :=
    (appEndFold_none_iff b init none).mpr ⟨rfl, hnone⟩
  rw [h0]
  simp only [List.foldl_cons, List.foldl_nil]
  rw [appEndStep_some_b, if_pos ⟨hq.1, hq.2, True.intro⟩]
  rfl

/-- Step lemma: `blEndStep` ignores non-NONE regions. -/
theorem blEndStep_not_none_region {br : Region} {rs : Int} {acc : Option Int} {r : Region}
    (h : r.name ≠ RegionName.NONE) : blEndStep br rs acc r = acc := by
  unfold blEndStep
  rw [if_neg]
  rintro ⟨h1, -⟩
  exact h h1

/-- A list without NONE regions leaves the `blEndAddress` accumulator
undefined. -/
theorem blEndScan_eq_none {br : Region} {rs : Int} {l : List Region}
    (h : ∀ r ∈ l, r.name ≠ RegionName.NONE) : blEndScan br rs l = none := by
  unfold blEndScan
  induction l with
  | nil => rfl
  | cons r t ih =>
    rw [List.foldl_cons, blEndStep_not_none_region (h r (List.mem_cons_self r t))]
    exact ih fun x hx => h x (List.mem_cons_of_mem r hx)

end ScanLemmas

section PassEquations

/-- The application-merge pass when all three conditions hold. -/
theorem updateFileAppRegions_fired {l t : List Region} {b : Region} {s e : Int}
    (hb : t.find? (fun r => r.name == RegionName.BOOTLOADER) = some b)
    (hs : appStartScan l = some s)
    (he : appEndScan (some b) l = some e) :
    updateFileAppRegions l t
      = removeMatching (fun r => QualApp b r) l ++ [mkAppRegion s e] := by
  unfold updateFileAppRegions
  rw [hb, hs, he]

/-- The application-merge pass is a no-op without a target bootloader. -/
theorem updateFileAppRegions_noop_find {l t : List Region}
    (hb : t.find? (fun r => r.name == RegionName.BOOTLOADER) = none) :
    updateFileAppRegions l t = l := by
  unfold updateFileAppRegions
  rw [hb]

/-- The application-merge pass is a no-op when `appStartAddress` stays
undefined. -/
theorem updateFileAppRegions_noop_start {l t : List Region}
    (hs : appStartScan l = none) :
    updateFileAppRegions l t = l := by
  unfold updateFileAppRegions
  rw [hs]
  cases hfind : t.find? (fun r => r.name == RegionName.BOOTLOADER) with
  | none => rfl
  | some b => rfl

/-- The application-merge pass is a no-op when `appEndAddress` stays
undefined. -/
theorem updateFileAppRegions_noop_end {l t : List Region} {b : Region}
    (hb : t.find? (fun r => r.name == RegionName.BOOTLOADER) = some b)
    (he : appEndScan (some b) l = none) :
    updateFileAppRegions l t = l := by
  unfold updateFileAppRegions
  rw [hb, he]
  rcases appStartScan l with _ | s <;> rfl

/-- The bootloader-merge pass is a no-op without a file bootloader region. -/
theorem updateFileBlRegion_noop_find {l : List Region} {d : DeviceInfo}
    (hb : l.find? (fun r => r.name == RegionName.BOOTLOADER) = none) :
    updateFileBlRegion l d = l := by
  unfold updateFileBlRegion
  rw [hb]

/-- The bootloader-merge pass is a no-op when `blEndAddress` stays
undefined. -/
theorem updateFileBlRegion_noop_scan {l : List Region} {d : DeviceInfo} {blRegion : Region}
    (hb : l.find? (fun r => r.name == RegionName.BOOTLOADER) = some blRegion)
    (hsc : blEndScan blRegion d.romSize l = none) :
    updateFileBlRegion l d = l := by
  unfold updateFileBlRegion
  rw [hb]
  show (match blEndScan blRegion d.romSize l with
        | none => l
        | some blEndAddress =>
          let removed := removeMatching (fun r => r.name = RegionName.NONE) l
          removed.set (removed.indexOf blRegion)
            { blRegion with regionSize := blEndAddress - blRegion.startAddress }) = l
  rw [hsc]

/-- The bootloader-merge pass when it fires. -/
theorem updateFileBlRegion_fired {l : List Region} {d : DeviceInfo} {blRegion : Region}
    {blEndAddress : Int}
    (hb : l.find? (fun r => r.name == RegionName.BOOTLOADER) = some blRegion)
    (hsc : blEndScan blRegion d.romSize l = some blEndAddress) :
    updateFileBlRegion l d
      = (removeMatching (fun r => r.name = RegionName.NONE) l).set
          ((removeMatching (fun r => r.name = RegionName.NONE) l).indexOf blRegion)
          { blRegion with regionSize := blEndAddress - blRegion.startAddress } := by
  unfold updateFileBlRegion
  rw [hb]
  show (match blEndScan blRegion d.romSize l with
        | none => l
        | some blEndAddress =>
          let removed := removeMatching (fun r => r.name = RegionName.NONE) l
          removed.set (removed.indexOf blRegion)
            { blRegion with regionSize := blEndAddress - blRegion.startAddress }) = _
  rw [hsc]

end PassEquations

section ScanBounds

/-- With a defined nonzero accumulator and no zero APPLICATION starts, the
`appStartAddress` fold computes the minimum of the accumulator and the
scanned APPLICATION start addresses. -/
theorem appStartFold_min :
    ∀ (l : List Region) (a : Int), a ≠ 0 →
      (∀ r ∈ l, r.name = RegionName.APPLICATION → r.startAddress ≠ 0) →
      ∃ m, l.foldl appStartStep (some a) = some m ∧ m ≠ 0 ∧ m ≤ a ∧
        (m = a ∨ ∃ r ∈ l, r.name = RegionName.APPLICATION ∧ r.startAddress = m) ∧
        (∀ r ∈ l, r.name = RegionName.APPLICATION → m ≤ r.startAddress) := by
  intro l
  induction l with
  | nil =>
    intro a ha _
    exact ⟨a, rfl, ha, le_refl a, Or.inl rfl, by simp⟩
  | cons r t ih =>
    intro a ha hz
    rw [List.foldl_cons]
    by_cases happ : r.name = RegionName.APPLICATION
    · have hrz : r.startAddress ≠ 0 := hz r (List.mem_cons_self r t) happ
      by_cases hlt : r.startAddress < a
      · have hstep : appStartStep (some a) r = some r.startAddress := by
          unfold appStartStep
          rw [if_pos ⟨happ, Or.inr hlt⟩]
        rw [hstep]
        obtain ⟨m, h1, h2, h3, h4, h5⟩ :=
          ih r.startAddress hrz (fun x hx hax => hz x (List.mem_cons_of_mem r hx) hax)
        refine ⟨m, h1, h2, le_trans h3 (le_of_lt hlt), ?_, ?_⟩
        · rcases h4 with h | ⟨r2, hr2, h6⟩
          · exact Or.inr ⟨r, List.mem_cons_self r t, happ, h.symm⟩
          · exact Or.inr ⟨r2, List.mem_cons_of_mem r hr2, h6⟩
        · intro x hx hax
          rcases List.mem_cons.mp hx with h | h
          · subst h; exact h3
          · exact h5 x h hax
      · have hstep : appStartStep (some a) r = some a := by
          unfold appStartStep
          rw [if_neg]
          rintro ⟨-, hor⟩
          rcases hor with h | h
          · exact ha h
          · exact hlt h
        rw [hstep]
        obtain ⟨m, h1, h2, h3, h4, h5⟩ :=
          ih a ha (fun x hx hax => hz x (List.mem_cons_of_mem r hx) hax)
        refine ⟨m, h1, h2, h3, ?_, ?_⟩
        · rcases h4 with h | ⟨r2, hr2, h6⟩
          · exact Or.inl h
          · exact Or.inr ⟨r2, List.mem_cons_of_mem r hr2, h6⟩
        · intro x hx hax
          rcases List.mem_cons.mp hx with h | h
          · subst h; exact le_trans h3 (not_lt.mp hlt)
          · exact h5 x h hax
    · rw [appStartStep_not_app happ]
      obtain ⟨m, h1, h2, h3, h4, h5⟩ :=
        ih a ha (fun x hx hax => hz x (List.mem_cons_of_mem r hx) hax)
      refine ⟨m, h1, h2, h3, ?_, ?_⟩
      · rcases h4 with h | ⟨r2, hr2, h6⟩
        · exact Or.inl h
        · exact Or.inr ⟨r2, List.mem_cons_of_mem r hr2, h6⟩
      · intro x hx hax
        rcases List.mem_cons.mp hx with h | h
        · subst h; exact absurd hax happ
        · exact h5 x h hax

/-- When no APPLICATION start is zero and at least one APPLICATION region is
present, `appStartScan` computes the minimum APPLICATION start address. -/
theorem appStartScan_min {l : List Region}
    (hz : ∀ r ∈ l, r.name = RegionName.APPLICATION → r.startAddress ≠ 0)
    (hex : ∃ r ∈ l, r.name = RegionName.APPLICATION) :
    ∃ m, appStartScan l = some m ∧
      (∃ r ∈ l, r.name = RegionName.APPLICATION ∧ r.startAddress = m) ∧
      (∀ r ∈ l, r.name = RegionName.APPLICATION → m ≤ r.startAddress) := by
  induction l with
  | nil => obtain ⟨r, hr, -⟩ := hex; cases hr
  | cons r t ih =>
    unfold appStartScan
    rw [List.foldl_cons]
    by_cases happ : r.name = RegionName.APPLICATION
    · have hstep : appStartStep none r = some r.startAddress := by
        unfold appStartStep
        rw [if_pos ⟨happ, True.intro⟩]
      rw [hstep]
      have hrz : r.startAddress ≠ 0 := hz r (List.mem_cons_self r t) happ
      obtain ⟨m, h1, h2, h3, h4, h5⟩ :=
        appStartFold_min t r.startAddress hrz
          (fun x hx hax => hz x (List.mem_cons_of_mem r hx) hax)
      refine ⟨m, h1, ?_, ?_⟩
      · rcases h4 with h | ⟨r2, hr2, h6⟩
        · exact ⟨r, List.mem_cons_self r t, happ, h.symm⟩
        · exact ⟨r2, List.mem_cons_of_mem r hr2, h6⟩
      · intro x hx hax
        rcases List.mem_cons.mp hx with h | h
        · subst h; exact h3
        · exact h5 x h hax
    · rw [appStartStep_not_app happ]
      have hex2 : ∃ x ∈ t, x.name = RegionName.APPLICATION := by
        obtain ⟨x, hx, hax⟩ := hex
        rcases List.mem_cons.mp hx with h | h
        · subst h; exact absurd hax happ
        · exact ⟨x, h, hax⟩
      obtain ⟨m, h1, h2, h3⟩ :=
        ih (fun x hx hax => hz x (List.mem_cons_of_mem r hx) hax) hex2
      refine ⟨m, h1, ?_, ?_⟩
      · obtain ⟨r2, hr2, h6⟩ := h2
        exact ⟨r2, List.mem_cons_of_mem r hr2, h6⟩
      · intro x hx hax
        rcases List.mem_cons.mp hx with h | h
        · subst h; exact absurd hax happ
        · exact h3 x h hax

/-- The `appEndAddress` fold, from the end of a qualifying fragment `r0`,
over regions whose qualifying fragments are pairwise separated by nonempty
gaps: the fold computes the maximum qualifying end address. -/
theorem appEndFold_max (b : Region) :
    ∀ (t : List Region) (r0 : Region),
      QualApp b r0 → WfRegion r0 →
      (∀ r ∈ t, WfRegion r) →
      (∀ r ∈ t, QualApp b r →
        (regionEnd r0 < r.startAddress ∨ regionEnd r < r0.startAddress)) →
      List.Pairwise (fun x y => QualApp b x → QualApp b y →
        (regionEnd x < y.startAddress ∨ regionEnd y < x.startAddress)) t →
      ∃ r1, QualApp b r1 ∧ (r1 = r0 ∨ r1 ∈ t) ∧ WfRegion r1 ∧
        regionEnd r0 ≤ regionEnd r1 ∧
        (∀ r ∈ t, QualApp b r → regionEnd r ≤ regionEnd r1) ∧
        t.foldl (appEndStep (some b)) (some (regionEnd r0)) = some (regionEnd r1) := by
  intro t
  induction t with
  | nil =>
    intro r0 hq hwf _ _ _
    exact ⟨r0, hq, Or.inl rfl, hwf, le_refl _, by simp, rfl⟩
  | cons r t ih =>
    intro r0 hq hwf hwfl hsep hpw
    rw [List.foldl_cons]
    have hwr : WfRegion r := hwfl r (List.mem_cons_self r t)
    have hpos : 0 < regionEnd r0 := by
      obtain ⟨h1, h2⟩ := hwf
      simp only [regionEnd]
      omega
    by_cases hqr : QualApp b r
    · rcases hsep r (List.mem_cons_self r t) hqr with hlt | hlt
      · have hstep : appEndStep (some b) (some (regionEnd r0)) r = some (regionEnd r) := by
          rw [appEndStep_some_b, if_pos ⟨hqr.1, hqr.2, Or.inr hlt⟩]
          rfl
        rw [hstep]
        have hsep2 : ∀ x ∈ t, QualApp b x →
            (regionEnd r < x.startAddress ∨ regionEnd x < r.startAddress) := by
          intro x hx hqx
          exact (List.pairwise_cons.mp hpw).1 x hx hqr hqx
        obtain ⟨r1, k1, k2, k3, k4, k5, k6⟩ :=
          ih r hqr hwr (fun x hx => hwfl x (List.mem_cons_of_mem r hx)) hsep2
            (List.pairwise_cons.mp hpw).2
        have hr0r : regionEnd r0 ≤ regionEnd r := by
          obtain ⟨j1, j2⟩ := hwr
          simp only [regionEnd] at hlt ⊢
          omega
        refine ⟨r1, k1, ?_, k3, le_trans hr0r k4, ?_, k6⟩
        · rcases k2 with h | h
          · exact Or.inr (h ▸ List.mem_cons_self r t)
          · exact Or.inr (List.mem_cons_of_mem r h)
        · intro x hx hqx
          rcases List.mem_cons.mp hx with h | h
          · subst h; exact k4
          · exact k5 x h hqx
      · have hstep : appEndStep (some b) (some (regionEnd r0)) r = some (regionEnd r0) := by
          rw [appEndStep_some_b, if_neg]
          rintro ⟨-, -, hor⟩
          rcases hor with h | h
          · omega
          · obtain ⟨j1, j2⟩ := hwr
            obtain ⟨j3, j4⟩ := hwf
            simp only [regionEnd] at h hlt
            omega
        rw [hstep]
        obtain ⟨r1, k1, k2, k3, k4, k5, k6⟩ :=
          ih r0 hq hwf (fun x hx => hwfl x (List.mem_cons_of_mem r hx))
            (fun x hx hqx => hsep x (List.mem_cons_of_mem r hx) hqx)
            (List.pairwise_cons.mp hpw).2
        have hrr1 : regionEnd r ≤ regionEnd r1 := by
          obtain ⟨j3, j4⟩ := hwf
          simp only [regionEnd] at hlt k4 ⊢
          omega
        refine ⟨r1, k1, ?_, k3, k4, ?_, k6⟩
        · rcases k2 with h | h
          · exact Or.inl h
          · exact Or.inr (List.mem_cons_of_mem r h)
        · intro x hx hqx
          rcases List.mem_cons.mp hx with h | h
          · subst h; exact hrr1
          · exact k5 x h hqx
    · rw [appEndStep_not_qual hqr]
      obtain ⟨r1, k1, k2, k3, k4, k5, k6⟩ :=
        ih r0 hq hwf (fun x hx => hwfl x (List.mem_cons_of_mem r hx))
          (fun x hx hqx => hsep x (List.mem_cons_of_mem r hx) hqx)
          (List.pairwise_cons.mp hpw).2
      refine ⟨r1, k1, ?_, k3, k4, ?_, k6⟩
      · rcases k2 with h | h
        · exact Or.inl h
        · exact Or.inr (List.mem_cons_of_mem r h)
      · intro x hx hqx
        rcases List.mem_cons.mp hx with h | h
        · subst h; exact absurd hqx hqr
        · exact k5 x h hqx

/-- When well-formed qualifying APPLICATION fragments are pairwise separated
by nonempty gaps and at least one is present, `appEndScan` computes the
maximum qualifying end address. -/
theorem appEndScan_max {b : Region} {l : List Region}
    (hwfl : ∀ r ∈ l, WfRegion r)
    (hpw : List.Pairwise (fun x y => QualApp b x → QualApp b y →
      (regionEnd x < y.startAddress ∨ regionEnd y < x.startAddress)) l)
    (hex : ∃ r ∈ l, QualApp b r) :
    ∃ r1 ∈ l, QualApp b r1 ∧ appEndScan (some b) l = some (regionEnd r1) ∧
      (∀ r ∈ l, QualApp b r → regionEnd r ≤ regionEnd r1) := by
  induction l with
  | nil => obtain ⟨r, hr, -⟩ := hex; cases hr
  | cons r t ih =>
    unfold appEndScan
    rw [List.foldl_cons]
    by_cases hqr : QualApp b r
    · have hstep : appEndStep (some b) none r = some (regionEnd r) := by
        rw [appEndStep_some_b, if_pos ⟨hqr.1, hqr.2, True.intro⟩]
        rfl
      rw [hstep]
      obtain ⟨r1, k1, k2, k3, k4, k5, k6⟩ :=
        appEndFold_max b t r hqr (hwfl r (List.mem_cons_self r t))
          (fun x hx => hwfl x (List.mem_cons_of_mem r hx))
          (fun x hx hqx => (List.pairwise_cons.mp hpw).1 x hx hqr hqx)
          (List.pairwise_cons.mp hpw).2
      refine ⟨r1, ?_, k1, k6, ?_⟩
      · rcases k2 with h | h
        · exact h ▸ List.mem_cons_self r t
        · exact List.mem_cons_of_mem r h
      · intro x hx hqx
        rcases List.mem_cons.mp hx with h | h
        · subst h; exact k4
        · exact k5 x h hqx
    · rw [appEndStep_not_qual hqr]
      have hex2 : ∃ x ∈ t, QualApp b x := by
        obtain ⟨x, hx, hqx⟩ := hex
        rcases List.mem_cons.mp hx with h | h
        · subst h; exact absurd hqx hqr
        · exact ⟨x, h, hqx⟩
      obtain ⟨r1, k0, k1, k2, k3⟩ :=
        ih (fun x hx => hwfl x (List.mem_cons_of_mem r hx))
          (List.pairwise_cons.mp hpw).2 hex2
      refine ⟨r1, List.mem_cons_of_mem r k0, k1, k2, ?_⟩
      intro x hx hqx
      rcases List.mem_cons.mp hx with h | h
      · subst h; exact absurd hqx hqr
      · exact k3 x h hqx

/-- Step lemma: `blEndStep` ignores regions that are not qualifying NONE regions. -/
theorem blEndStep_not_qual {br : Region} {rs : Int} {acc : Option Int} {r : Region}
    (h : ¬ QualNone br rs r) : blEndStep br rs acc r = acc := by
  unfold blEndStep
  rw [if_neg]
  rintro ⟨h1, h2, h3, -⟩
  exact h ⟨h1, h2, h3⟩

/-- The `blEndAddress` fold, from the end of a qualifying NONE region `r0`,
over regions whose qualifying NONE regions are pairwise disjoint: the fold
computes the maximum qualifying end address.  (The scan condition uses `<=`,
so adjacent regions are fine; the bootloader start must be non-negative so
that accumulated ends are nonzero.) -/
theorem blEndFold_max (br : Region) (rs : Int) (hbr : 0 ≤ br.startAddress) :
    ∀ (t : List Region) (r0 : Region),
      QualNone br rs r0 → WfRegion r0 →
      (∀ r ∈ t, WfRegion r) →
      (∀ r ∈ t, QualNone br rs r →
        (regionEnd r0 ≤ r.startAddress ∨ regionEnd r ≤ r0.startAddress)) →
      List.Pairwise (fun x y => QualNone br rs x → QualNone br rs y →
        (regionEnd x ≤ y.startAddress ∨ regionEnd y ≤ x.startAddress)) t →
      ∃ r1, QualNone br rs r1 ∧ (r1 = r0 ∨ r1 ∈ t) ∧ WfRegion r1 ∧
        regionEnd r0 ≤ regionEnd r1 ∧
        (∀ r ∈ t, QualNone br rs r → regionEnd r ≤ regionEnd r1) ∧
        t.foldl (blEndStep br rs) (some (regionEnd r0)) = some (regionEnd r1) := by
  intro t
  induction t with
  | nil =>
    intro r0 hq hwf _ _ _
    exact ⟨r0, hq, Or.inl rfl, hwf, le_refl _, by simp, rfl⟩
  | cons r t ih =>
    intro r0 hq hwf hwfl hsep hpw
    rw [List.foldl_cons]
    have hwr : WfRegion r := hwfl r (List.mem_cons_self r t)
    have hpos : 0 < regionEnd r0 := by
      obtain ⟨h1, h2⟩ := hwf
      have h3 := hq.2.1
      simp only [regionEnd]
      omega
    by_cases hqr : QualNone br rs r
    · rcases hsep r (List.mem_cons_self r t) hqr with hle | hle
      · have hstep : blEndStep br rs (some (regionEnd r0)) r = some (regionEnd r) := by
          unfold blEndStep
          rw [if_pos ⟨hqr.1, hqr.2.1, hqr.2.2, Or.inr hle⟩]
          rfl
        rw [hstep]
        have hsep2 : ∀ x ∈ t, QualNone br rs x →
            (regionEnd r ≤ x.startAddress ∨ regionEnd x ≤ r.startAddress) := by
          intro x hx hqx
          exact (List.pairwise_cons.mp hpw).1 x hx hqr hqx
        obtain ⟨r1, k1, k2, k3, k4, k5, k6⟩ :=
          ih r hqr hwr (fun x hx => hwfl x (List.mem_cons_of_mem r hx)) hsep2
            (List.pairwise_cons.mp hpw).2
        have hr0r : regionEnd r0 ≤ regionEnd r := by
          obtain ⟨j1, j2⟩ := hwr
          simp only [regionEnd] at hle ⊢
          omega
        refine ⟨r1, k1, ?_, k3, le_trans hr0r k4, ?_, k6⟩
        · rcases k2 with h | h
          · exact Or.inr (h ▸ List.mem_cons_self r t)
          · exact Or.inr (List.mem_cons_of_mem r h)
        · intro x hx hqx
          rcases List.mem_cons.mp hx with h | h
          · subst h; exact k4
          · exact k5 x h hqx
      · have hstep : blEndStep br rs (some (regionEnd r0)) r = some (regionEnd r0) := by
          unfold blEndStep
          rw [if_neg]
          rintro ⟨-, -, -, hor⟩
          rcases hor with h | h
          · omega
          · obtain ⟨j1, j2⟩ := hwr
            obtain ⟨j3, j4⟩ := hwf
            simp only [regionEnd] at h hle
            omega
        rw [hstep]
        obtain ⟨r1, k1, k2, k3, k4, k5, k6⟩ :=
          ih r0 hq hwf (fun x hx => hwfl x (List.mem_cons_of_mem r hx))
            (fun x hx hqx => hsep x (List.mem_cons_of_mem r hx) hqx)
            (List.pairwise_cons.mp hpw).2
        have hrr1 : regionEnd r ≤ regionEnd r1 := by
          obtain ⟨j3, j4⟩ := hwf
          simp only [regionEnd] at hle k4 ⊢
          omega
        refine ⟨r1, k1, ?_, k3, k4, ?_, k6⟩
        · rcases k2 with h | h
          · exact Or.inl h
          · exact Or.inr (List.mem_cons_of_mem r h)
        · intro x hx hqx
          rcases List.mem_cons.mp hx with h | h
          · subst h; exact hrr1
          · exact k5 x h hqx
    · rw [blEndStep_not_qual hqr]
      obtain ⟨r1, k1, k2, k3, k4, k5, k6⟩ :=
        ih r0 hq hwf (fun x hx => hwfl x (List.mem_cons_of_mem r hx))
          (fun x hx hqx => hsep x (List.mem_cons_of_mem r hx) hqx)
          (List.pairwise_cons.mp hpw).2
      refine ⟨r1, k1, ?_, k3, k4, ?_, k6⟩
      · rcases k2 with h | h
        · exact Or.inl h
        · exact Or.inr (List.mem_cons_of_mem r h)
      · intro x hx hqx
        rcases List.mem_cons.mp hx with h | h
        · subst h; exact absurd hqx hqr
        · exact k5 x h hqx

/-- When well-formed qualifying NONE regions are pairwise disjoint and at
least one is present, `blEndScan` computes the maximum qualifying end
address. -/
theorem blEndScan_max {br : Region} {rs : Int} {l : List Region}
    (hbr : 0 ≤ br.startAddress)
    (hwfl : ∀ r ∈ l, WfRegion r)
    (hpw : List.Pairwise (fun x y => QualNone br rs x → QualNone br rs y →
      (regionEnd x ≤ y.startAddress ∨ regionEnd y ≤ x.startAddress)) l)
    (hex : ∃ r ∈ l, QualNone br rs r) :
    ∃ r1 ∈ l, QualNone br rs r1 ∧ blEndScan br rs l = some (regionEnd r1) ∧
      (∀ r ∈ l, QualNone br rs r → regionEnd r ≤ regionEnd r1) := by
  induction l with
  | nil => obtain ⟨r, hr, -⟩ := hex; cases hr
  | cons r t ih =>
    unfold blEndScan
    rw [List.foldl_cons]
    by_cases hqr : QualNone br rs r
    · have hstep : blEndStep br rs none r = some (regionEnd r) := by
        unfold blEndStep
        rw [if_pos ⟨hqr.1, hqr.2.1, hqr.2.2, True.intro⟩]
        rfl
      rw [hstep]
      obtain ⟨r1, k1, k2, k3, k4, k5, k6⟩ :=
        blEndFold_max br rs hbr t r hqr (hwfl r (List.mem_cons_self r t))
          (fun x hx => hwfl x (List.mem_cons_of_mem r hx))
          (fun x hx hqx => (List.pairwise_cons.mp hpw).1 x hx hqr hqx)
          (List.pairwise_cons.mp hpw).2
      refine ⟨r1, ?_, k1, k6, ?_⟩
      · rcases k2 with h | h
        · exact h ▸ List.mem_cons_self r t
        · exact List.mem_cons_of_mem r h
      · intro x hx hqx
        rcases List.mem_cons.mp hx with h | h
        · subst h; exact k4
        · exact k5 x h hqx
    · rw [blEndStep_not_qual hqr]
      have hex2 : ∃ x ∈ t, QualNone br rs x := by
        obtain ⟨x, hx, hqx⟩ := hex
        rcases List.mem_cons.mp hx with h | h
        · subst h; exact absurd hqx hqr
        · exact ⟨x, h, hqx⟩
      obtain ⟨r1, k0, k1, k2, k3⟩ :=
        ih (fun x hx => hwfl x (List.mem_cons_of_mem r hx))
          (List.pairwise_cons.mp hpw).2 hex2
      refine ⟨r1, List.mem_cons_of_mem r k0, k1, k2, ?_⟩
      intro x hx hqx
      rcases List.mem_cons.mp hx with h | h
      · subst h; exact absurd hqx hqr
      · exact k3 x h hqx

end ScanBounds

section Stability

/-- The end address of the synthesized application region. -/
theorem regionEnd_mkAppRegion (s e : Int) : regionEnd (mkAppRegion s e) = s + (e - s) := rfl

/-- Re-synthesizing from the scanned end of a synthesized region gives the
same region back. -/
theorem mkAppRegion_regionEnd (s e : Int) :
    mkAppRegion s (regionEnd (mkAppRegion s e)) = mkAppRegion s e := by
  simp only [mkAppRegion, regionEnd, Region.mk.injEq, true_and, and_true]
  ring

/-- Membership after the bootloader-merge pass: every region of the output
was in the input or is the (possibly widened) BOOTLOADER region. -/
theorem updateFileBlRegion_mem (l : List Region) (d : DeviceInfo) :
    ∀ r ∈ updateFileBlRegion l d, r ∈ l ∨ r.name = RegionName.BOOTLOADER := by
  rcases hfind : l.find? (fun r => r.name == RegionName.BOOTLOADER) with _ | bl
  · rw [updateFileBlRegion_noop_find hfind]
    exact fun r hr => Or.inl hr
  · rcases hscan : blEndScan bl d.romSize l with _ | E
    · rw [updateFileBlRegion_noop_scan hfind hscan]
      exact fun r hr => Or.inl hr
    · rw [updateFileBlRegion_fired hfind hscan]
      intro r hr
      rcases List.mem_or_eq_of_mem_set hr with h | h
      · rw [removeMatching_eq_filter] at h
        exact Or.inl (List.mem_filter.mp h).1
      · subst h
        have hblname : bl.name = RegionName.BOOTLOADER := by
          have h2 := List.find?_some hfind
          simpa [beq_iff_eq] using h2
        exact Or.inr hblname

/-- After the bootloader-merge pass fires, no NONE region remains. -/
theorem updateFileBlRegion_fired_no_none {l : List Region} {d : DeviceInfo}
    {blRegion : Region} {blEndAddress : Int}
    (hb : l.find? (fun r => r.name == RegionName.BOOTLOADER) = some blRegion)
    (hsc : blEndScan blRegion d.romSize l = some blEndAddress) :
    ∀ r ∈ updateFileBlRegion l d, r.name ≠ RegionName.NONE := by
  rw [updateFileBlRegion_fired hb hsc]
  intro r hr
  rcases List.mem_or_eq_of_mem_set hr with h | h
  · rw [removeMatching_eq_filter] at h
    have h2 := (List.mem_filter.mp h).2
    simpa using h2
  · subst h
    have hblname : blRegion.name = RegionName.BOOTLOADER := by
      have h2 := List.find?_some hb
      simpa [beq_iff_eq] using h2
    show blRegion.name ≠ RegionName.NONE
    rw [hblname]
    simp

/-- The bootloader-merge pass is idempotent on its own output. -/
theorem blPass_stable (l : List Region) (d : DeviceInfo) :
    updateFileBlRegion (updateFileBlRegion l d) d = updateFileBlRegion l d := by
  rcases hfind : l.find? (fun r => r.name == RegionName.BOOTLOADER) with _ | bl
  · rw [updateFileBlRegion_noop_find hfind, updateFileBlRegion_noop_find hfind]
  · rcases hscan : blEndScan bl d.romSize l with _ | E
    · rw [updateFileBlRegion_noop_scan hfind hscan, updateFileBlRegion_noop_scan hfind hscan]
    · have hnn : ∀ r ∈ updateFileBlRegion l d, r.name ≠ RegionName.NONE :=
        updateFileBlRegion_fired_no_none hfind hscan
      rcases hfind2 : (updateFileBlRegion l d).find? (fun r => r.name == RegionName.BOOTLOADER)
          with _ | bl2
      · exact updateFileBlRegion_noop_find hfind2
      · exact updateFileBlRegion_noop_scan hfind2 (blEndScan_eq_none hnn)

/-- A list consisting of non-qualifying regions followed by one synthesized
application region below the bootloader start is a fixed point of the
application-merge pass. -/
theorem appPass_fixed_append {t : List Region} {b : Region} {init : List Region} {s e : Int}
    (hb : t.find? (fun r => r.name == RegionName.BOOTLOADER) = some b)
    (hsb : s < b.startAddress)
    (hinit : ∀ r ∈ init, ¬ QualApp b r) :
    updateFileAppRegions (init ++ [mkAppRegion s e]) t = init ++ [mkAppRegion s e] := by
  have hMq : QualApp b (mkAppRegion s e) := ⟨rfl, hsb⟩
  have h1 : appStartScan (init ++ [mkAppRegion s e]) = some s := by
    apply appStartScan_append_single rfl
    intro r hr happ
    have hnlt : ¬ r.startAddress < b.startAddress := fun hlt => hinit r hr ⟨happ, hlt⟩
    exact lt_of_lt_of_le hsb (not_lt.mp hnlt)
  have h2 : appEndScan (some b) (init ++ [mkAppRegion s e])
      = some (regionEnd (mkAppRegion s e)) :=
    appEndScan_append_single hMq hinit
  rw [updateFileAppRegions_fired hb h1 h2, removeMatching_eq_filter, List.filter_append]
  have hfi : init.filter (fun r => decide (¬ QualApp b r)) = init :=
    List.filter_eq_self.mpr (fun r hr => by
      simp only [decide_eq_true_eq]
      exact hinit r hr)
  have hfM : [mkAppRegion s e].filter (fun r => decide (¬ QualApp b r)) = ([] : List Region) := by
    simp [hMq]
  rw [hfi, hfM, mkAppRegion_regionEnd]
  simp

/-- The application-merge pass is the identity on the reconciler's output. -/
theorem appPass_stable (l t : List Region) (d : DeviceInfo) :
    updateFileAppRegions (reconcile l t d) t = reconcile l t d := by
  unfold reconcile
  rcases hb : t.find? (fun r => r.name == RegionName.BOOTLOADER) with _ | b
  · exact updateFileAppRegions_noop_find hb
  · rcases hs : appStartScan l with _ | s
    · have hnapp : ∀ r ∈ l, r.name ≠ RegionName.APPLICATION :=
        ((appStartFold_none_iff l none).mp hs).2
      rw [updateFileAppRegions_noop_start hs]
      have hnapp2 : ∀ r ∈ updateFileBlRegion l d, r.name ≠ RegionName.APPLICATION := by
        intro r hr
        rcases updateFileBlRegion_mem l d r hr with h | h
        · exact hnapp r h
        · rw [h]; simp
      exact updateFileAppRegions_noop_start
        ((appStartFold_none_iff _ none).mpr ⟨rfl, hnapp2⟩)
    · rcases he : appEndScan (some b) l with _ | e
      · have hnq : ∀ r ∈ l, ¬ QualApp b r := ((appEndFold_none_iff b l none).mp he).2
        rw [updateFileAppRegions_noop_end hb he]
        have hnq2 : ∀ r ∈ updateFileBlRegion l d, ¬ QualApp b r := by
          intro r hr
          rcases updateFileBlRegion_mem l d r hr with h | h
          · exact hnq r h
          · rintro ⟨h1, -⟩
            rw [h] at h1
            exact RegionName.noConfusion h1
        exact updateFileAppRegions_noop_end hb
          ((appEndFold_none_iff b _ none).mpr ⟨rfl, hnq2⟩)
      · rw [updateFileAppRegions_fired hb hs he, removeMatching_eq_filter]
        have hremnq : ∀ r ∈ l.filter (fun r => decide (¬ QualApp b r)), ¬ QualApp b r := by
          intro r hr
          have h2 := (List.mem_filter.mp hr).2
          simp only [decide_eq_true_eq] at h2
          exact h2
        by_cases hsb : s < b.startAddress
        · rcases hfind1 : (l.filter (fun r => decide (¬ QualApp b r)) ++ [mkAppRegion s e]).find?
              (fun r => r.name == RegionName.BOOTLOADER) with _ | bl
          · rw [updateFileBlRegion_noop_find hfind1]
            exact appPass_fixed_append hb hsb hremnq
          · rcases hscan1 : blEndScan bl d.romSize
                (l.filter (fun r => decide (¬ QualApp b r)) ++ [mkAppRegion s e]) with _ | E
            · rw [updateFileBlRegion_noop_scan hfind1 hscan1]
              exact appPass_fixed_append hb hsb hremnq
            · rw [updateFileBlRegion_fired hfind1 hscan1]
              have hblname : bl.name = RegionName.BOOTLOADER := by
                have h2 := List.find?_some hfind1
                simpa [beq_iff_eq] using h2
              have hblM : bl ≠ mkAppRegion s e := by
                intro hcon
                rw [hcon] at hblname
                exact RegionName.noConfusion hblname
              have hblmem : bl ∈ l.filter (fun r => decide (¬ QualApp b r)) := by
                have hmem := List.mem_of_find?_eq_some hfind1
                rcases List.mem_append.mp hmem with h | h
                · exact h
                · exact absurd (List.mem_singleton.mp h) hblM
              rw [removeMatching_eq_filter, List.filter_append]
              have hMfil : [mkAppRegion s e].filter
                  (fun r => decide (¬ r.name = RegionName.NONE)) = [mkAppRegion s e] := by
                simp [mkAppRegion]
              rw [hMfil]
              have hblfr : bl ∈ (l.filter (fun r => decide (¬ QualApp b r))).filter
                  (fun r => decide (¬ r.name = RegionName.NONE)) :=
                List.mem_filter.mpr ⟨hblmem, by simp [hblname]⟩
              rw [indexOf_append_left _ hblfr]
              have hltidx : ((l.filter (fun r => decide (¬ QualApp b r))).filter
                  (fun r => decide (¬ r.name = RegionName.NONE))).indexOf bl
                  < ((l.filter (fun r => decide (¬ QualApp b r))).filter
                  (fun r => decide (¬ r.name = RegionName.NONE))).length :=
                List.indexOf_lt_length.mpr hblfr
              rw [List.set_append, if_pos hltidx]
              apply appPass_fixed_append hb hsb
              intro r hr
              rcases List.mem_or_eq_of_mem_set hr with h | h
              · exact hremnq r (List.mem_filter.mp h).1
              · subst h
                rintro ⟨h1, -⟩
                have h3 : bl.name = RegionName.APPLICATION := h1
                rw [hblname] at h3
                exact RegionName.noConfusion h3
        · have hnq1 : ∀ r ∈ l.filter (fun r => decide (¬ QualApp b r)) ++ [mkAppRegion s e],
              ¬ QualApp b r := by
            intro r hr
            rcases List.mem_append.mp hr with h | h
            · exact hremnq r h
            · have hrM := List.mem_singleton.mp h
              subst hrM
              rintro ⟨-, h2⟩
              exact hsb h2
          have hnq2 : ∀ r ∈ updateFileBlRegion
              (l.filter (fun r => decide (¬ QualApp b r)) ++ [mkAppRegion s e]) d,
              ¬ QualApp b r := by
            intro r hr
            rcases updateFileBlRegion_mem _ d r hr with h | h
            · exact hnq1 r h
            · rintro ⟨h1, -⟩
              rw [h] at h1
              exact RegionName.noConfusion h1
          exact updateFileAppRegions_noop_end hb
            ((appEndFold_none_iff b _ none).mpr ⟨rfl, hnq2⟩)

end Stability

section Claims

/-- C1, counterexample: with the adjacent APPLICATION fragments
[0x1000,0x2000) and [0x2000,0x3000) and a known target BOOTLOADER at
0x5000, both fragments start below the bootloader, yet the synthesized
region is [0x1000,0x2000): its end is not the maximum `start+size` (0x3000)
over the fragments below the bootloader, because the scan only advances
when the current end is strictly below the next fragment's start. -/
theorem C1_appMerge_counterexample :
    updateFileAppRegions
      [⟨RegionName.APPLICATION, 0x1000, 0x1000, RegionColor.APPLICATION⟩,
       ⟨RegionName.APPLICATION, 0x2000, 0x1000, RegionColor.APPLICATION⟩]
      [⟨RegionName.BOOTLOADER, 0x5000, 0x1000, RegionColor.BOOTLOADER⟩]
      = [⟨RegionName.APPLICATION, 0x1000, 0x1000, RegionColor.APPLICATION⟩]
    ∧ ∀ r ∈ updateFileAppRegions
      [⟨RegionName.APPLICATION, 0x1000, 0x1000, RegionColor.APPLICATION⟩,
       ⟨RegionName.APPLICATION, 0x2000, 0x1000, RegionColor.APPLICATION⟩]
      [⟨RegionName.BOOTLOADER, 0x5000, 0x1000, RegionColor.BOOTLOADER⟩],
      regionEnd r ≠ 0x3000 := by decide

/-- C1 (amended): when the target regions hold a BOOTLOADER region, the
regions are well formed, no APPLICATION fragment starts at address 0, the
qualifying APPLICATION fragments are pairwise separated by nonempty gaps,
and at least one APPLICATION fragment starts below the bootloader start,
the pass removes exactly the APPLICATION fragments starting below the
bootloader start and appends one synthesized APPLICATION region whose start
is the minimum start over all APPLICATION fragments and whose end is the
maximum `start+size` over the fragments below the bootloader start. -/
theorem C1_appMerge_amended
    (l t : List Region) (b : Region)
    (hb : t.find? (fun r => r.name == RegionName.BOOTLOADER) = some b)
    (hwf : ∀ r ∈ l, WfRegion r)
    (hz : ∀ r ∈ l, r.name = RegionName.APPLICATION → r.startAddress ≠ 0)
    (hpw : List.Pairwise (fun x y => QualApp b x → QualApp b y →
      (regionEnd x < y.startAddress ∨ regionEnd y < x.startAddress)) l)
    (hex : ∃ r ∈ l, QualApp b r) :
    ∃ s e,
      updateFileAppRegions l t
        = l.filter (fun r => decide (¬ QualApp b r)) ++ [mkAppRegion s e] ∧
      (∃ r ∈ l, r.name = RegionName.APPLICATION ∧ r.startAddress = s) ∧
      (∀ r ∈ l, r.name = RegionName.APPLICATION → s ≤ r.startAddress) ∧
      (∃ r ∈ l, QualApp b r ∧ regionEnd r = e) ∧
      (∀ r ∈ l, QualApp b r → regionEnd r ≤ e) := by
  have hexA : ∃ r ∈ l, r.name = RegionName.APPLICATION := by
    obtain ⟨r, hr, hq⟩ := hex
    exact ⟨r, hr, hq.1⟩
  obtain ⟨s, hs, hsmem, hsmin⟩ := appStartScan_min hz hexA
  obtain ⟨r1, hr1mem, hr1q, hescan, hemax⟩ := appEndScan_max hwf hpw hex
  refine ⟨s, regionEnd r1, ?_, hsmem, hsmin, ⟨r1, hr1mem, hr1q, rfl⟩, hemax⟩
  rw [updateFileAppRegions_fired hb hs hescan, removeMatching_eq_filter]

/-- C1 witness: the amended statement at a concrete input. -/
theorem C1_appMerge_amended_witness :
    ∃ s e,
      updateFileAppRegions
        [⟨RegionName.APPLICATION, 0x1000, 0x1000, RegionColor.APPLICATION⟩,
         ⟨RegionName.APPLICATION, 0x3000, 0x1000, RegionColor.APPLICATION⟩]
        [⟨RegionName.BOOTLOADER, 0x5000, 0x1000, RegionColor.BOOTLOADER⟩]
        = ([⟨RegionName.APPLICATION, 0x1000, 0x1000, RegionColor.APPLICATION⟩,
            ⟨RegionName.APPLICATION, 0x3000, 0x1000, RegionColor.APPLICATION⟩].filter
            (fun r => decide (¬ QualApp ⟨RegionName.BOOTLOADER, 0x5000, 0x1000,
              RegionColor.BOOTLOADER⟩ r))) ++ [mkAppRegion s e] ∧
      (∃ r ∈ [⟨RegionName.APPLICATION, 0x1000, 0x1000, RegionColor.APPLICATION⟩,
         (⟨RegionName.APPLICATION, 0x3000, 0x1000, RegionColor.APPLICATION⟩ : Region)],
        r.name = RegionName.APPLICATION ∧ r.startAddress = s) ∧
      (∀ r ∈ [⟨RegionName.APPLICATION, 0x1000, 0x1000, RegionColor.APPLICATION⟩,
         (⟨RegionName.APPLICATION, 0x3000, 0x1000, RegionColor.APPLICATION⟩ : Region)],
        r.name = RegionName.APPLICATION → s ≤ r.startAddress) ∧
      (∃ r ∈ [⟨RegionName.APPLICATION, 0x1000, 0x1000, RegionColor.APPLICATION⟩,
         (⟨RegionName.APPLICATION, 0x3000, 0x1000, RegionColor.APPLICATION⟩ : Region)],
        QualApp ⟨RegionName.BOOTLOADER, 0x5000, 0x1000, RegionColor.BOOTLOADER⟩ r
          ∧ regionEnd r = e) ∧
      (∀ r ∈ [⟨RegionName.APPLICATION, 0x1000, 0x1000, RegionColor.APPLICATION⟩,
         (⟨RegionName.APPLICATION, 0x3000, 0x1000, RegionColor.APPLICATION⟩ : Region)],
        QualApp ⟨RegionName.BOOTLOADER, 0x5000, 0x1000, RegionColor.BOOTLOADER⟩ r
          → regionEnd r ≤ e) :=
  C1_appMerge_amended
    [⟨RegionName.APPLICATION, 0x1000, 0x1000, RegionColor.APPLICATION⟩,
     ⟨RegionName.APPLICATION, 0x3000, 0x1000, RegionColor.APPLICATION⟩]
    [⟨RegionName.BOOTLOADER, 0x5000, 0x1000, RegionColor.BOOTLOADER⟩]
    ⟨RegionName.BOOTLOADER, 0x5000, 0x1000, RegionColor.BOOTLOADER⟩
    (by decide) (by decide) (by decide) (by decide) (by decide)

/-- C2, counterexample: the NONE region [0x100,0x200) starts at or before
the bootloader start 0x7000 and therefore is not scanned; the claim says it
is left unchanged, but the removal loop removes every NONE region, so it
disappears from the output. -/
theorem C2_blMerge_counterexample :
    (⟨RegionName.NONE, 0x100, 0x100, RegionColor.NONE⟩ : Region) ∈
      [⟨RegionName.NONE, 0x100, 0x100, RegionColor.NONE⟩,
       ⟨RegionName.BOOTLOADER, 0x7000, 0x100, RegionColor.BOOTLOADER⟩,
       ⟨RegionName.NONE, 0x7100, 0x100, RegionColor.NONE⟩]
    ∧ updateFileBlRegion
        [⟨RegionName.NONE, 0x100, 0x100, RegionColor.NONE⟩,
         ⟨RegionName.BOOTLOADER, 0x7000, 0x100, RegionColor.BOOTLOADER⟩,
         ⟨RegionName.NONE, 0x7100, 0x100, RegionColor.NONE⟩]
        ⟨0x8000, 0x1000, 0x10001000⟩
      = [⟨RegionName.BOOTLOADER, 0x7000, 0x200, RegionColor.BOOTLOADER⟩]
    ∧ (⟨RegionName.NONE, 0x100, 0x100, RegionColor.NONE⟩ : Region) ∉
      updateFileBlRegion
        [⟨RegionName.NONE, 0x100, 0x100, RegionColor.NONE⟩,
         ⟨RegionName.BOOTLOADER, 0x7000, 0x100, RegionColor.BOOTLOADER⟩,
         ⟨RegionName.NONE, 0x7100, 0x100, RegionColor.NONE⟩]
        ⟨0x8000, 0x1000, 0x10001000⟩ := by decide

/-- C2 (amended): when the pass fires (a BOOTLOADER region is present and
some qualifying NONE region exists), it widens the found bootloader region
to end at the maximum `start+size` over the qualifying NONE regions, but
removes every NONE region, qualifying or not; all non-NONE regions other
than the found bootloader survive. -/
theorem C2_blMerge_amended
    (l : List Region) (d : DeviceInfo) (bl : Region)
    (hb : l.find? (fun r => r.name == RegionName.BOOTLOADER) = some bl)
    (hwf : ∀ r ∈ l, WfRegion r)
    (hpw : List.Pairwise (fun x y => QualNone bl d.romSize x → QualNone bl d.romSize y →
      (regionEnd x ≤ y.startAddress ∨ regionEnd y ≤ x.startAddress)) l)
    (hex : ∃ r ∈ l, QualNone bl d.romSize r) :
    ∃ e, (∃ r ∈ l, QualNone bl d.romSize r ∧ regionEnd r = e) ∧
      (∀ r ∈ l, QualNone bl d.romSize r → regionEnd r ≤ e) ∧
      (∀ r ∈ updateFileBlRegion l d, r.name ≠ RegionName.NONE) ∧
      (∀ r ∈ l, r.name ≠ RegionName.NONE → r ≠ bl → r ∈ updateFileBlRegion l d) ∧
      { bl with regionSize := e - bl.startAddress } ∈ updateFileBlRegion l d := by
  have hblmem : bl ∈ l := List.mem_of_find?_eq_some hb
  have hbl0 : 0 ≤ bl.startAddress := (hwf bl hblmem).1
  have hbln : bl.name = RegionName.BOOTLOADER := by
    have h2 := List.find?_some hb
    simpa [beq_iff_eq] using h2
  obtain ⟨r1, hr1mem, hr1q, hscan, hmax⟩ := blEndScan_max hbl0 hwf hpw hex
  have hfired := updateFileBlRegion_fired hb hscan
  rw [removeMatching_eq_filter] at hfired
  have hblrem : bl ∈ l.filter (fun r => decide (¬ r.name = RegionName.NONE)) :=
    List.mem_filter.mpr ⟨hblmem, by simp [hbln]⟩
  have hidxlt : (l.filter (fun r => decide (¬ r.name = RegionName.NONE))).indexOf bl
      < (l.filter (fun r => decide (¬ r.name = RegionName.NONE))).length :=
    List.indexOf_lt_length.mpr hblrem
  refine ⟨regionEnd r1, ⟨r1, hr1mem, hr1q, rfl⟩, hmax,
    updateFileBlRegion_fired_no_none hb hscan, ?_, ?_⟩
  · intro r hr hname hrbl
    rw [hfired]
    have hrmem : r ∈ l.filter (fun r => decide (¬ r.name = RegionName.NONE)) :=
      List.mem_filter.mpr ⟨hr, by simp [hname]⟩
    obtain ⟨j, hj, hjr⟩ := List.mem_iff_getElem.mp hrmem
    have hjne : (l.filter (fun r => decide (¬ r.name = RegionName.NONE))).indexOf bl ≠ j := by
      intro hcon
      subst hcon
      have hbleq : (l.filter (fun r => decide (¬ r.name = RegionName.NONE)))[(l.filter
          (fun r => decide (¬ r.name = RegionName.NONE))).indexOf bl] = bl :=
        List.getElem_indexOf hidxlt
      exact hrbl (hjr.symm.trans hbleq)
    refine List.mem_iff_getElem.mpr ⟨j, ?_, ?_⟩
    · rw [List.length_set]
      exact hj
    · rw [List.getElem_set_of_ne hjne]
      exact hjr
  · rw [hfired]
    refine List.mem_iff_getElem.mpr
      ⟨(l.filter (fun r => decide (¬ r.name = RegionName.NONE))).indexOf bl, ?_, ?_⟩
    · rw [List.length_set]
      exact hidxlt
    · rw [List.getElem_set]
      simp

/-- C2 witness: the amended statement at a concrete input containing a
non-qualifying APPLICATION region that must survive. -/
theorem C2_blMerge_amended_witness :
    ∃ e, (∃ r ∈ [⟨RegionName.APPLICATION, 0x100, 0x100, RegionColor.APPLICATION⟩,
         ⟨RegionName.BOOTLOADER, 0x7000, 0x100, RegionColor.BOOTLOADER⟩,
         (⟨RegionName.NONE, 0x7100, 0x100, RegionColor.NONE⟩ : Region)],
        QualNone ⟨RegionName.BOOTLOADER, 0x7000, 0x100, RegionColor.BOOTLOADER⟩ 0x8000 r
          ∧ regionEnd r = e) ∧
      (∀ r ∈ [⟨RegionName.APPLICATION, 0x100, 0x100, RegionColor.APPLICATION⟩,
         ⟨RegionName.BOOTLOADER, 0x7000, 0x100, RegionColor.BOOTLOADER⟩,
         (⟨RegionName.NONE, 0x7100, 0x100, RegionColor.NONE⟩ : Region)],
        QualNone ⟨RegionName.BOOTLOADER, 0x7000, 0x100, RegionColor.BOOTLOADER⟩ 0x8000 r
          → regionEnd r ≤ e) ∧
      (∀ r ∈ updateFileBlRegion
        [⟨RegionName.APPLICATION, 0x100, 0x100, RegionColor.APPLICATION⟩,
         ⟨RegionName.BOOTLOADER, 0x7000, 0x100, RegionColor.BOOTLOADER⟩,
         ⟨RegionName.NONE, 0x7100, 0x100, RegionColor.NONE⟩]
        ⟨0x8000, 0x1000, 0x10001000⟩, r.name ≠ RegionName.NONE) ∧
      (∀ r ∈ [⟨RegionName.APPLICATION, 0x100, 0x100, RegionColor.APPLICATION⟩,
         ⟨RegionName.BOOTLOADER, 0x7000, 0x100, RegionColor.BOOTLOADER⟩,
         (⟨RegionName.NONE, 0x7100, 0x100, RegionColor.NONE⟩ : Region)],
        r.name ≠ RegionName.NONE
          → r ≠ ⟨RegionName.BOOTLOADER, 0x7000, 0x100, RegionColor.BOOTLOADER⟩
          → r ∈ updateFileBlRegion
            [⟨RegionName.APPLICATION, 0x100, 0x100, RegionColor.APPLICATION⟩,
             ⟨RegionName.BOOTLOADER, 0x7000, 0x100, RegionColor.BOOTLOADER⟩,
             ⟨RegionName.NONE, 0x7100, 0x100, RegionColor.NONE⟩]
            ⟨0x8000, 0x1000, 0x10001000⟩) ∧
      ({ (⟨RegionName.BOOTLOADER, 0x7000, 0x100, RegionColor.BOOTLOADER⟩ : Region) with
          regionSize := e - (0x7000 : Int) } ∈ updateFileBlRegion
        [⟨RegionName.APPLICATION, 0x100, 0x100, RegionColor.APPLICATION⟩,
         ⟨RegionName.BOOTLOADER, 0x7000, 0x100, RegionColor.BOOTLOADER⟩,
         ⟨RegionName.NONE, 0x7100, 0x100, RegionColor.NONE⟩]
        ⟨0x8000, 0x1000, 0x10001000⟩) :=
  C2_blMerge_amended
    [⟨RegionName.APPLICATION, 0x100, 0x100, RegionColor.APPLICATION⟩,
     ⟨RegionName.BOOTLOADER, 0x7000, 0x100, RegionColor.BOOTLOADER⟩,
     ⟨RegionName.NONE, 0x7100, 0x100, RegionColor.NONE⟩]
    ⟨0x8000, 0x1000, 0x10001000⟩
    ⟨RegionName.BOOTLOADER, 0x7000, 0x100, RegionColor.BOOTLOADER⟩
    (by decide) (by decide) (by decide) (by decide)

/-- C3: the reconciler can violate the disjointness invariant.  On the
pairwise-disjoint input APPLICATION [0x1000,0x2000), NONE [0x2100,0x2200),
APPLICATION [0x3000,0x4000) with a target bootloader at 0x5000, the
application-merge pass produces APPLICATION [0x1000,0x4000) while leaving
the NONE region inside it, so the output regions intersect. -/
theorem C3_disjointness_violation :
    List.Pairwise (fun x y => regionEnd x ≤ y.startAddress ∨ regionEnd y ≤ x.startAddress)
      [⟨RegionName.APPLICATION, 0x1000, 0x1000, RegionColor.APPLICATION⟩,
       ⟨RegionName.NONE, 0x2100, 0x100, RegionColor.NONE⟩,
       ⟨RegionName.APPLICATION, 0x3000, 0x1000, RegionColor.APPLICATION⟩]
    ∧ reconcile
        [⟨RegionName.APPLICATION, 0x1000, 0x1000, RegionColor.APPLICATION⟩,
         ⟨RegionName.NONE, 0x2100, 0x100, RegionColor.NONE⟩,
         ⟨RegionName.APPLICATION, 0x3000, 0x1000, RegionColor.APPLICATION⟩]
        [⟨RegionName.BOOTLOADER, 0x5000, 0x1000, RegionColor.BOOTLOADER⟩]
        ⟨0x8000, 0x1000, 0x10001000⟩
      = [⟨RegionName.NONE, 0x2100, 0x100, RegionColor.NONE⟩,
         ⟨RegionName.APPLICATION, 0x1000, 0x3000, RegionColor.APPLICATION⟩]
    ∧ ¬ List.Pairwise (fun x y => regionEnd x ≤ y.startAddress ∨ regionEnd y ≤ x.startAddress)
        (reconcile
          [⟨RegionName.APPLICATION, 0x1000, 0x1000, RegionColor.APPLICATION⟩,
           ⟨RegionName.NONE, 0x2100, 0x100, RegionColor.NONE⟩,
           ⟨RegionName.APPLICATION, 0x3000, 0x1000, RegionColor.APPLICATION⟩]
          [⟨RegionName.BOOTLOADER, 0x5000, 0x1000, RegionColor.BOOTLOADER⟩]
          ⟨0x8000, 0x1000, 0x10001000⟩) := by decide

/-- C4, counterexample: at the spec's example input — APPLICATION
[0x1000,0x2000), APPLICATION [0x3000,0x4000), BOOTLOADER [0x5000,0x6000) —
the merge yields no APPLICATION region [0x1000,0x3000), whether the
bootloader region is known from the target device (first conjunct) or only
present among the file regions (second conjunct, where the pass does not
fire at all). -/
theorem C4_appMerge_counterexample :
    (∀ r ∈ updateFileAppRegions
      [⟨RegionName.APPLICATION, 0x1000, 0x1000, RegionColor.APPLICATION⟩,
       ⟨RegionName.APPLICATION, 0x3000, 0x1000, RegionColor.APPLICATION⟩,
       ⟨RegionName.BOOTLOADER, 0x5000, 0x1000, RegionColor.BOOTLOADER⟩]
      [⟨RegionName.BOOTLOADER, 0x5000, 0x1000, RegionColor.BOOTLOADER⟩],
      ¬ (r.name = RegionName.APPLICATION ∧ r.startAddress = 0x1000 ∧ r.regionSize = 0x2000))
    ∧ (∀ r ∈ updateFileAppRegions
      [⟨RegionName.APPLICATION, 0x1000, 0x1000, RegionColor.APPLICATION⟩,
       ⟨RegionName.APPLICATION, 0x3000, 0x1000, RegionColor.APPLICATION⟩,
       ⟨RegionName.BOOTLOADER, 0x5000, 0x1000, RegionColor.BOOTLOADER⟩]
      [],
      ¬ (r.name = RegionName.APPLICATION ∧ r.startAddress = 0x1000 ∧ r.regionSize = 0x2000))
    := by decide

/-- C4 (amended): at that input, with the bootloader region known from the
target device, reconciliation of the application fragments yields exactly
one APPLICATION region [0x1000,0x4000) — spanning from the lowest fragment
start to the highest fragment end — beside the untouched BOOTLOADER
region. -/
theorem C4_appMerge_amended :
    updateFileAppRegions
      [⟨RegionName.APPLICATION, 0x1000, 0x1000, RegionColor.APPLICATION⟩,
       ⟨RegionName.APPLICATION, 0x3000, 0x1000, RegionColor.APPLICATION⟩,
       ⟨RegionName.BOOTLOADER, 0x5000, 0x1000, RegionColor.BOOTLOADER⟩]
      [⟨RegionName.BOOTLOADER, 0x5000, 0x1000, RegionColor.BOOTLOADER⟩]
    = [⟨RegionName.BOOTLOADER, 0x5000, 0x1000, RegionColor.BOOTLOADER⟩,
       ⟨RegionName.APPLICATION, 0x1000, 0x3000, RegionColor.APPLICATION⟩] := by decide

/-- C5: given exactly the regions BOOTLOADER [0x7000,0x7100) and NONE
[0x7100,0x7200) with device romSize 0x8000, the bootloader-merge pass
widens the BOOTLOADER region to [0x7000,0x7200) and removes the NONE
region. -/
theorem C5_blMerge_example :
    updateFileBlRegion
      [⟨RegionName.BOOTLOADER, 0x7000, 0x100, RegionColor.BOOTLOADER⟩,
       ⟨RegionName.NONE, 0x7100, 0x100, RegionColor.NONE⟩]
      ⟨0x8000, 0x1000, 0x10001000⟩
    = [⟨RegionName.BOOTLOADER, 0x7000, 0x200, RegionColor.BOOTLOADER⟩] := by decide

/-- C6: for every region sequence and fixed device metadata, running the
two reconciler passes (updateFileAppRegions then updateFileBlRegion) twice
yields the same region sequence as running them once. -/
theorem C6_reconcile_idempotent (l t : List Region) (d : DeviceInfo) :
    reconcile (reconcile l t d) t d = reconcile l t d := by
  have h1 : updateFileAppRegions (reconcile l t d) t = reconcile l t d := appPass_stable l t d
  show updateFileBlRegion (updateFileAppRegions (reconcile l t d) t) d = reconcile l t d
  rw [h1]
  exact blPass_stable _ d

/-- Prop-condition version of `foldl_push_eq`: an accumulate-append fold is
the filtered-and-mapped list. -/
theorem foldl_push_eq_prop {α β : Type} (p : α → Prop) [DecidablePred p] (f : α → β) :
    ∀ (l : List α) (acc : List β),
      l.foldl (fun acc x => if p x then acc ++ [f x] else acc) acc
        = acc ++ (l.filter (fun x => decide (p x))).map f := by
  intro l
  induction l with
  | nil => intro acc; simp
  | cons a t ih =>
    intro acc
    by_cases hp : p a
    · simp [List.filter_cons, hp, ih]
    · simp [List.filter_cons, hp, ih]

/-- C7: a covered block `[startAddress, endAddress)` from the overlap map is
reported outside the device's writable area exactly when
`startAddress < uicrBaseAddr ∧ endAddress > romSize` or
`startAddress ≥ uicrBaseAddr ∧ endAddress > uicrBaseAddr + pageSize`, and
each flagged block is rendered as the zero-padded 8-hex-digit string
`"<startAddress>-<endAddress>"`; in particular a covered range
`[romSize-0x10, romSize+0x10)` below the UICR base is flagged. -/
theorem C7_outside_flash (d : DeviceInfo) (overlaps : List OverlapEntry) :
    (∀ s, s ∈ outsideFlashBlocks overlaps d ↔
      ∃ ov ∈ overlaps,
        ((ov.1 < d.uicrBaseAddr ∧ overlapEndAddress ov > d.romSize)
          ∨ (ov.1 ≥ d.uicrBaseAddr ∧ overlapEndAddress ov > d.uicrBaseAddr + d.pageSize))
        ∧ s = hexpad8 ov.1 ++ "-" ++ hexpad8 (overlapEndAddress ov)) ∧
    (∀ ov ∈ overlaps, ov.1 = d.romSize - 0x10 → overlapEndAddress ov = d.romSize + 0x10 →
      d.romSize - 0x10 < d.uicrBaseAddr →
      hexpad8 ov.1 ++ "-" ++ hexpad8 (overlapEndAddress ov)
        ∈ outsideFlashBlocks overlaps d) := by
  have hmain : outsideFlashBlocks overlaps d
      = (overlaps.filter
          (fun ov => decide (outsideFlashCond d ov.1 (overlapEndAddress ov)))).map
          outsideBlockString := by
    unfold outsideFlashBlocks
    rw [foldl_push_eq_prop (fun ov => outsideFlashCond d ov.1 (overlapEndAddress ov))
      outsideBlockString overlaps []]
    simp
  have hiff : ∀ s, s ∈ outsideFlashBlocks overlaps d ↔
      ∃ ov ∈ overlaps,
        ((ov.1 < d.uicrBaseAddr ∧ overlapEndAddress ov > d.romSize)
          ∨ (ov.1 ≥ d.uicrBaseAddr ∧ overlapEndAddress ov > d.uicrBaseAddr + d.pageSize))
        ∧ s = hexpad8 ov.1 ++ "-" ++ hexpad8 (overlapEndAddress ov) := by
    intro s
    rw [hmain]
    constructor
    · intro h
      obtain ⟨ov, hov, hs⟩ := List.mem_map.mp h
      have hmem := List.mem_filter.mp hov
      have hcond := hmem.2
      simp only [decide_eq_true_eq] at hcond
      exact ⟨ov, hmem.1, hcond, hs.symm⟩
    · rintro ⟨ov, hov, hcond, rfl⟩
      exact List.mem_map.mpr
        ⟨ov, List.mem_filter.mpr ⟨hov, by simp only [decide_eq_true_eq]; exact hcond⟩, rfl⟩
  refine ⟨hiff, ?_⟩
  intro ov hov h1 h2 h3
  refine (hiff _).mpr ⟨ov, hov, Or.inl ⟨?_, ?_⟩, rfl⟩
  · rw [h1]; exact h3
  · rw [h2]; omega

/-- C7 witness: on a typical device (romSize 0x1000, uicrBaseAddr
0x10001000) a block [0xFF0, 0x1010) — which is [romSize-0x10,
romSize+0x10) — is flagged and rendered as "00000ff0-00001010". -/
theorem C7_outside_flash_witness :
    ("00000ff0-00001010" ∈
      outsideFlashBlocks [((0xFF0 : Int), [("a.hex", 0x20)])] ⟨0x1000, 0x1000, 0x10001000⟩)
    ∧ (∀ s, s ∈ outsideFlashBlocks [((0xFF0 : Int), [("a.hex", 0x20)])]
          ⟨0x1000, 0x1000, 0x10001000⟩ ↔
        ∃ ov ∈ [((0xFF0 : Int), [("a.hex", 0x20)])],
          ((ov.1 < (0x10001000 : Int) ∧ overlapEndAddress ov > (0x1000 : Int))
            ∨ (ov.1 ≥ (0x10001000 : Int)
                ∧ overlapEndAddress ov > (0x10001000 : Int) + 0x1000))
          ∧ s = hexpad8 ov.1 ++ "-" ++ hexpad8 (overlapEndAddress ov)) := by
  constructor
  · have h := (C7_outside_flash ⟨0x1000, 0x1000, 0x10001000⟩
      [((0xFF0 : Int), [("a.hex", 0x20)])]).2
    have h2 := h ((0xFF0 : Int), [("a.hex", 0x20)]) (by decide) (by decide) (by decide)
      (by decide)
    exact h2
  · exact (C7_outside_flash ⟨0x1000, 0x1000, 0x10001000⟩
      [((0xFF0 : Int), [("a.hex", 0x20)])]).1

/-- C8, counterexample: loading a path already present in the store raises
no error at all — the guard returns early with nothing dispatched (the
claimed DuplicateKeyError does not exist in this flow); the state is
returned untouched. -/
theorem C8_duplicate_counterexample :
    parseOneFileGuard ⟨[("a.hex", [(0, 1)])], [("a.hex", [(0, 1)])]⟩ "a.hex"
      = some ⟨⟨[("a.hex", [(0, 1)])], [("a.hex", [(0, 1)])]⟩, false⟩ := rfl

/-- C8 (amended): loading a file whose path is already present returns
immediately: no error is dispatched, and the prior store state — the
loaded map and the memMaps sequence — is exactly what the early return
leaves in place. -/
theorem C8_duplicate_amended (st : FileState) (filePath : String)
    (h : (st.loaded.lookup filePath).isSome = true) :
    parseOneFileGuard st filePath = some ⟨st, false⟩ := by
  unfold parseOneFileGuard
  rw [if_pos h]

/-- C8 witness: the amended statement at a concrete two-file store. -/
theorem C8_duplicate_amended_witness :
    ((([("a.hex", [((0 : Int), 1)]), ("b.hex", [((4 : Int), 2)])].lookup "b.hex").isSome
        = true)
    ∧ parseOneFileGuard
        ⟨[("a.hex", [(0, 1)]), ("b.hex", [(4, 2)])], [("a.hex", [(0, 1)])]⟩ "b.hex"
      = some ⟨⟨[("a.hex", [(0, 1)]), ("b.hex", [(4, 2)])], [("a.hex", [(0, 1)])]⟩, false⟩) :=
  ⟨rfl, C8_duplicate_amended
    ⟨[("a.hex", [(0, 1)]), ("b.hex", [(4, 2)])], [("a.hex", [(0, 1)])]⟩ "b.hex" rfl⟩

/-- C9, counterexample: inserting a path that is already in the
most-recently-used list leaves the list completely unchanged — the inserted
path is *not* moved to the front. -/
theorem C9_mru_counterexample :
    addMruFile "b" ["a", "b"] = ["a", "b"]
    ∧ (addMruFile "b" ["a", "b"]).head? ≠ some "b" := by decide

/-- C9 (amended): inserting an absent path prepends it and truncates the
list to ten entries, so the result has at most 10 paths, is headed by the
inserted path, and contains it exactly once; inserting an already-present
path leaves the list unchanged (no move to front, no truncation). -/
theorem C9_mru_amended (filename : String) (files : List String) :
    (filename ∈ files → addMruFile filename files = files) ∧
    (filename ∉ files →
      (addMruFile filename files).length ≤ 10 ∧
      (addMruFile filename files).head? = some filename ∧
      (addMruFile filename files).count filename = 1) := by
  constructor
  · intro h
    unfold addMruFile
    rw [if_pos h]
  · intro h
    unfold addMruFile
    rw [if_neg h]
    refine ⟨List.length_take_le 10 _, ?_, ?_⟩
    · show ((filename :: files).take (9 + 1)).head? = some filename
      rw [List.take_succ_cons]
      rfl
    · show ((filename :: files).take (9 + 1)).count filename = 1
      rw [List.take_succ_cons, List.count_cons_self]
      have hz : (files.take 9).count filename = 0 :=
        List.count_eq_zero.mpr (fun hmem => h (List.mem_of_mem_take hmem))
      rw [hz]

/-- C9 witness: the amended statement at concrete inputs — a present path
("b" in ["a","b"]) is left in place, and an absent path ("c") ends up in
front, once, in a list of ≤ 10 entries. -/
theorem C9_mru_amended_witness :
    (("b" ∈ ["a", "b"] → addMruFile "b" ["a", "b"] = ["a", "b"])
      ∧ ("c" ∉ ["a", "b"] →
        (addMruFile "c" ["a", "b"]).length ≤ 10 ∧
        (addMruFile "c" ["a", "b"]).head? = some "c" ∧
        (addMruFile "c" ["a", "b"]).count "c" = 1))
    ∧ "b" ∈ ["a", "b"] ∧ "c" ∉ ["a", "b"] :=
  ⟨⟨(C9_mru_amended "b" ["a", "b"]).1, (C9_mru_amended "c" ["a", "b"]).2⟩,
    by decide, by decide⟩

/-- C10: a successfully parsed file is flagged as MCUBoot firmware (the
mcubootFileKnownAction dispatch list is nonempty) exactly when the parsed
memory map holds a data block starting at 0xC000; maps with no such block
never dispatch the flag. -/
theorem C10_mcuboot_iff (filePath : String) (memMap : MemMap) :
    mcubootDispatches filePath memMap ≠ []
      ↔ ∃ blk ∈ memMap, blk.1 = MCUBOOT_FW_START_ADDRESS := by
  unfold mcubootDispatches
  rw [foldl_push_eq (fun block => block.1 == MCUBOOT_FW_START_ADDRESS)
    (fun _ => filePath) memMap []]
  simp only [List.nil_append, ne_eq, List.map_eq_nil_iff, List.filter_eq_nil_iff, beq_iff_eq,
    not_forall]
  constructor
  · rintro ⟨blk, hmem, hval⟩
    exact ⟨blk, hmem, by simpa using hval⟩
  · rintro ⟨blk, hmem, hval⟩
    exact ⟨blk, hmem, by simpa using hval⟩

end Claims
